import Mathlib

/-!
Verification of the symbol/call inventory extractor (parserClang.py).

The Python source is shallowly embedded below.  Clang cursors are modelled
by two views, matching the two ways the program navigates them:

* `Node` — the downward (children) view used by `walk_preorder` and
  `find_funcs_and_calls`.  A node carries its kind, spelling, display name,
  the optional name of its location file (`cursor.location.file` may be
  `None`), an opaque numeric identity (clang cursor equality is entity
  identity, not name equality), an optional resolved-definition identity
  (`cursor.get_definition()` may be `None`), and its children.
* `SemNode` — the upward (semantic-parent) view used by `fully_qualified`.

Python dictionaries `global_funcs` / `global_calls` map a name to the list
`[count, file1, file2, ...]` (the count sits at index 0, file paths follow).
A table is modelled as an association list `List (String × Nat × List String)`
keeping insertion order; the pair `(count, files)` represents the Python list
`[count] ++ files`.  Python's membership test `file not in global_calls[name]`
scans the whole list including the integer at index 0, but a `str` never
equals an `int`, so it is exactly membership in the `files` part.
-/

/-- Cursor kinds distinguished by the program (`CursorKind.CALL_EXPR`,
`CursorKind.FUNCTION_DECL`, `CursorKind.TRANSLATION_UNIT`); every other kind
is only walked, so they are collapsed into `other` (with a `namespaceK`
sample standing for namespace scopes, used by qualified-name examples). -/
inductive CursorKind where
  | callExpr
  | functionDecl
  | translationUnit
  | namespaceK
  | other
  deriving DecidableEq, Repr

/-- Downward view of a clang cursor: kind, spelling, display name, location
file name (`none` models `cursor.location.file is None`), opaque cursor
identity `nid`, resolved-definition identity (`none` models
`get_definition()` returning `None`), and children. -/
inductive Node where
  | mk (kind : CursorKind) (spelling : String) (displayname : String)
       (locFile : Option String) (nid : Nat) (defnId : Option Nat)
       (children : List Node)

def Node.kind : Node → CursorKind
  | .mk k _ _ _ _ _ _ => k

def Node.spelling : Node → String
  | .mk _ s _ _ _ _ _ => s

def Node.displayname : Node → String
  | .mk _ _ d _ _ _ _ => d

def Node.locFile : Node → Option String
  | .mk _ _ _ l _ _ _ => l

def Node.nid : Node → Nat
  | .mk _ _ _ _ i _ _ => i

def Node.defnId : Node → Option Nat
  | .mk _ _ _ _ _ d _ => d

def Node.children : Node → List Node
  | .mk _ _ _ _ _ _ cs => cs

mutual

/-- Embeds `tu.cursor.walk_preorder()`: the node itself followed by the preorder
walks of all children; every descendant is visited unconditionally. -/
def walk_preorder : Node → List Node
  | .mk k s d l i df cs => .mk k s d l i df cs :: walkList cs

def walkList : List Node → List Node
  | [] => []
  | c :: cs => walk_preorder c ++ walkList cs

end

/-- Upward view of a cursor for `fully_qualified`: kind, spelling, and the
semantic parent (`none` models `semantic_parent` being `None`). -/
inductive SemNode where
  | mk (kind : CursorKind) (spelling : String) (parent : Option SemNode)

def SemNode.kind : SemNode → CursorKind
  | .mk k _ _ => k

def SemNode.spelling : SemNode → String
  | .mk _ s _ => s

def SemNode.parent : SemNode → Option SemNode
  | .mk _ _ p => p

mutual

/-- Embeds `fully_qualified(c)` (lines 107-116): empty string for `None` and for the
translation unit; otherwise recurse on the semantic parent and join with
`::` only when the recursive result is non-empty. -/
def fully_qualified : Option SemNode → String
  | none => ""
  | some n => fqNode n

/-- Body of `fully_qualified` on a present cursor. -/
def fqNode : SemNode → String
  | .mk k sp p =>
      if k = CursorKind.translationUnit then ""
      else
        let res := fully_qualified p
        if res ≠ "" then res ++ "::" ++ sp else sp

end

mutual

/-- Length of the semantic-parent chain above (and including) a cursor. -/
def chainDepth : Option SemNode → Nat
  | none => 0
  | some n => chainDepthN n + 1

/-- Chain length of a present cursor (parent chain plus the cursor). -/
def chainDepthN : SemNode → Nat
  | .mk _ _ p => chainDepth p

end

/-- Fuel-indexed variant of `fully_qualified`, performing exactly one
recursive step per unit of fuel; `none` means the fuel ran out before the
recursion bottomed out.  Used to state that the recursion terminates on
every finite ancestor chain. -/
def fqFuel : Nat → Option SemNode → Option String
  | 0, _ => none
  | _ + 1, none => some ""
  | fuel + 1, some (.mk k sp p) =>
      if k = CursorKind.translationUnit then some ""
      else
        match fqFuel fuel p with
        | none => none
        | some res => some (if res ≠ "" then res ++ "::" ++ sp else sp)

mutual

/-- The spellings of the ancestors of a cursor from the translation-unit
root (exclusive) down to the cursor itself (inclusive); the chain is cut at
a translation-unit ancestor or at an absent parent. -/
def pathSpellings : SemNode → List String
  | .mk k sp p =>
      if k = CursorKind.translationUnit then []
      else pathSpellingsOpt p ++ [sp]

/-- Ancestor spellings of an optional cursor. -/
def pathSpellingsOpt : Option SemNode → List String
  | none => []
  | some q => pathSpellings q

end

/-- Join as performed by `fully_qualified`: a new segment is appended with
`::` unless the accumulated prefix is still empty. -/
def joinStep (acc seg : String) : String :=
  if acc ≠ "" then acc ++ "::" ++ seg else seg

/-- Modelled from the spec (for comparison with the code, not from the
source): the `::`-join that skips every empty segment, as the specification
describes it. -/
def specQualifiedJoin (segs : List String) : String :=
  String.intercalate "::" (segs.filter (fun s => s ≠ ""))

/-- Embeds `is_function_call(funcdecl, c)` (lines 120-122): true iff
`c.get_definition()` is not `None` and equals `funcdecl` by cursor
identity. -/
def is_function_call (funcdecl : Node) (c : Node) : Bool :=
  match c.defnId with
  | none => false
  | some d => d = funcdecl.nid

/-- Python's `str.split(sep)` restricted to a one-character separator,
over the character list of the string.  `splitOnChar sep l` is never `[]`,
matching Python where `split` always yields at least one piece. -/
def splitOnChar (sep : Char) : List Char → List (List Char)
  | [] => [[]]
  | c :: rest =>
      if c = sep then [] :: splitOnChar sep rest
      else
        match splitOnChar sep rest with
        | [] => [[c]]
        | h :: t => (c :: h) :: t

/-- Embeds `filter_func_name(displayname)` (lines 125-128): if the display name
contains `(` (Python substring test `"(" in displayname`, equivalent to
character membership for a one-character pattern), return
`displayname.split('(')[0]`, else the display name unchanged. -/
def filter_func_name (displayname : String) : String :=
  if '(' ∈ displayname.data then
    String.mk ((splitOnChar '(' displayname.data).headD [])
  else displayname

/-- An aggregation table: `global_funcs` / `global_calls`.  Entry
`(name, count, files)` represents the Python dict entry
`name ↦ [count, file1, ...]`; insertion order of the association list is
Python dict iteration order. -/
abbrev Table := List (String × Nat × List String)

/-- Dictionary lookup: first entry with the given key. -/
def lookupTab : Table → String → Option (Nat × List String)
  | [], _ => none
  | (k, v) :: rest, key => if k = key then some v else lookupTab rest key

/-- In-place modification of the list stored at an existing key (both
`global_calls[name][0] += 1` and `global_calls[name].append(...)` mutate
the stored list object): replace the value at the first matching key. -/
def updateTab : Table → String → Nat × List String → Table
  | [], _, _ => []
  | (k, v) :: rest, key, nv =>
      if k = key then (k, nv) :: rest else (k, v) :: updateTab rest key nv

/-- One aggregation step of `find_funcs_and_calls` for one recorded node
(lines 146-154 / 161-169), performed on either table: if `name` is absent,
`table[name].append(1)` creates the entry `[1]` (the `defaultdict` default)
and the subsequent file-membership test on `[1]` always appends the file,
yielding `[1, file]`; if `name` is present, index 0 is incremented and the
file is appended only when not already present in the stored list. -/
def record (t : Table) (name file : String) : Table :=
  match lookupTab t name with
  | none => t ++ [(name, 1, [file])]
  | some (cnt, files) =>
      updateTab t name (cnt + 1, if file ∈ files then files else files ++ [file])

/-- The count stored for a name (0 when the name is absent). -/
def countOf (t : Table) (name : String) : Nat :=
  ((lookupTab t name).map Prod.fst).getD 0

/-- The file list stored for a name (`[]` when the name is absent). -/
def filesOf (t : Table) (name : String) : List String :=
  ((lookupTab t name).map Prod.snd).getD []

/-- The process-wide mutable state: the two aggregation tables
`global_funcs` and `global_calls` (lines 41-42). -/
structure GState where
  global_funcs : Table
  global_calls : Table
  deriving DecidableEq

/-- Loop state of `find_funcs_and_calls`: the local `funcs` and `calls`
lists plus the global tables. -/
structure AState where
  funcs : List Node
  calls : List Node
  g : GState

/-- The body of the `walk_preorder` loop (lines 136-169) for one cursor
`c`: skip when the location file is absent (`c.location.file is None`) or
its name differs from the unit's primary file; otherwise dispatch on the
kind, appending to the matching local list and recording into the matching
global table.  The recorded file path is `c.location.file.name`, which in
the recording branches equals `filename`. -/
def processNode (filename : String) (st : AState) (c : Node) : AState :=
  if c.locFile = none then st
  else if c.locFile ≠ some filename then st
  else if c.kind = CursorKind.callExpr then
    { st with
      calls := st.calls ++ [c]
      g := { st.g with
             global_calls :=
               record st.g.global_calls (filter_func_name c.displayname) filename } }
  else if c.kind = CursorKind.functionDecl then
    { st with
      funcs := st.funcs ++ [c]
      g := { st.g with
             global_funcs :=
               record st.g.global_funcs (filter_func_name c.displayname) filename } }
  else st

/-- Embeds `find_funcs_and_calls(tu)` (lines 132-171): the primary-file name is
`tu.cursor.spelling`; fold the loop body over the preorder walk starting
from fresh local lists, returning `(funcs, calls)` and the updated global
state. -/
def find_funcs_and_calls (tu : Node) (g : GState) :
    (List Node × List Node) × GState :=
  let filename := tu.spelling
  let st := (walk_preorder tu).foldl (processNode filename) ⟨[], [], g⟩
  ((st.funcs, st.calls), st.g)

/-- Number of preorder nodes of the unit that qualify as recorded call
expressions aggregating under `name`. -/
def callOcc (tu : Node) (name : String) : Nat :=
  (walk_preorder tu).countP (fun c =>
    decide (c.locFile = some tu.spelling) &&
    decide (c.kind = CursorKind.callExpr) &&
    decide (filter_func_name c.displayname = name))

/-- Number of preorder nodes of the unit that qualify as recorded function
declarations aggregating under `name`. -/
def declOcc (tu : Node) (name : String) : Nat :=
  (walk_preorder tu).countP (fun c =>
    decide (c.locFile = some tu.spelling) &&
    decide (c.kind = CursorKind.functionDecl) &&
    decide (filter_func_name c.displayname = name))

/-- Invariant: every stored file list is duplicate-free.  It holds of the
empty initial tables and is preserved by `record`. -/
def WFfiles (t : Table) : Prop :=
  ∀ kv ∈ t, (kv.2.2 : List String).Nodup

instance (t : Table) : Decidable (WFfiles t) :=
  List.decidableBAll _ t

/-- One pass of `compare_syscalls` (lines 209-214 and 216-221): iterate the
items of a table in order; when the key is in the syscall list, assign the
record unchanged into the (initially empty) result dictionary.  The loop
body only reads the global state, which is threaded through unchanged. -/
def classifyPass (syscalls : List String) (g : GState) (acc : Table) :
    Table → GState × Table
  | [] => (g, acc)
  | kv :: rest =>
      if kv.1 ∈ syscalls then classifyPass syscalls g (acc ++ [kv]) rest
      else classifyPass syscalls g acc rest

/-- Embeds `compare_syscalls(syscalls)` (lines 202-223): print the banner unless
silent, then run the two independent membership passes over `global_calls`
and `global_funcs`, returning `(called_syscalls, define_syscalls)` together
with the emitted messages and the (unchanged) global state.  The
verbose-gated `print(key, ...)` diagnostics (lines 211-213, 217-220) write
to stdout only and are not part of the message model. -/
def compare_syscalls (silent : Bool) (g : GState) (syscalls : List String) :
    List String × GState × Table × Table :=
  let msgs := if silent then [] else ["Gathered syscalls from function calls"]
  let p1 := classifyPass syscalls g [] g.global_calls
  let p2 := classifyPass syscalls p1.1 [] p1.1.global_funcs
  (msgs, p2.1, p1.2, p2.2)

/-- Classification of a path by the file system, as observed through
`os.path.isdir` / `os.path.isfile` (lines 46-48). -/
inductive PathKind where
  | dir
  | file
  | neither
  deriving DecidableEq, Repr

/-- The external world of one run: how the OS classifies paths, which files
`os.walk` yields under a directory (already joined as `subdir + os.sep +
file`), the parse tree the clang front-end returns for a file, and the
lines (without trailing newline) of a text file. -/
structure Env where
  pathKind : String → PathKind
  walkFiles : String → List String
  tree : String → Node
  fileLines : String → List String

/-- Embeds `str.endswith(suffix)`. -/
def pyEndswith (s suffix : String) : Bool :=
  suffix.data.isSuffixOf s.data

/-- Accumulated observable outcome of the scanning phase: messages printed
(in order), parse invocations attempted (file path and front-end argument
string), and the global aggregation state. -/
structure RunOut where
  msgs : List String
  parses : List (String × String)
  g : GState
  deriving DecidableEq

/-- Embeds `parse_file(filepath, arguments)` (lines 95-103): obtain the tree from
the front-end and fold it into the global tables via
`find_funcs_and_calls`.  The verbose-gated diagnostic display (lines
101-103) writes to stdout only and is not part of the message model. -/
def parse_file (env : Env) (filepath arguments : String) (g : GState) : RunOut :=
  ⟨[], [(filepath, arguments)], (find_funcs_and_calls (env.tree filepath) g).2⟩

/-- Embeds `check_type_file(filepath, includePaths)` (lines 63-76): build the two
option strings (appending the include flags when present), print the
gathering message unless silent, then parse only when the extension matches
one of the supported groups; any other extension is skipped without a
parse. -/
def check_type_file (env : Env) (silent : Bool) (filepath : String)
    (includePaths : Option String) (g : GState) : RunOut :=
  let cppOpts := "-x c++ --std=c++11" ++
    (match includePaths with
     | some inc => " " ++ inc
     | none => "")
  let cOpts := "" ++
    (match includePaths with
     | some inc => " " ++ inc
     | none => "")
  let msgs := if silent then [] else ["Gathering symbols of " ++ filepath]
  if pyEndswith filepath ".cpp" || pyEndswith filepath ".hpp" ||
     pyEndswith filepath ".cc" then
    let out := parse_file env filepath cppOpts g
    ⟨msgs ++ out.msgs, out.parses, out.g⟩
  else if pyEndswith filepath ".c" || pyEndswith filepath ".h" ||
          pyEndswith filepath ".hh" then
    let out := parse_file env filepath cOpts g
    ⟨msgs ++ out.msgs, out.parses, out.g⟩
  else
    ⟨msgs, [], g⟩

/-- Loop body of `iterate_root_folder` over the files delivered by
`os.walk`, accumulating messages, parse attempts and global state. -/
def iterateFiles (env : Env) (silent : Bool) (includePaths : Option String)
    (acc : RunOut) : List String → RunOut
  | [] => acc
  | f :: rest =>
      let out := check_type_file env silent f includePaths acc.g
      iterateFiles env silent includePaths
        ⟨acc.msgs ++ out.msgs, acc.parses ++ out.parses, out.g⟩ rest

/-- Embeds `iterate_root_folder(rootdir, includePaths)` (lines 79-83): visit every
file reported under the root directory. -/
def iterate_root_folder (env : Env) (silent : Bool) (rootdir : String)
    (includePaths : Option String) (g : GState) : RunOut :=
  iterateFiles env silent includePaths ⟨[], [], g⟩ (env.walkFiles rootdir)

/-- Embeds `check_input_path(path, includePaths)` (lines 45-51): directories are
walked, regular files are dispatched on extension, and any other path
falls into the `else` branch, which executes `sys.stderr("[WARNING]...")`.
`sys.stderr` is a file object, not a callable, so that statement raises an
uncaught `TypeError` and the run aborts; the warning text itself is never
written.  The raised error is modelled as the `Except.error` case. -/
def check_input_path (env : Env) (silent : Bool) (path : String)
    (includePaths : Option String) (g : GState) : Except String RunOut :=
  if env.pathKind path = PathKind.dir then
    .ok (iterate_root_folder env silent path includePaths g)
  else if env.pathKind path = PathKind.file then
    .ok (check_type_file env silent path includePaths g)
  else
    .error "TypeError: sys.stderr object is not callable"

/-- Embeds `get_include_paths(rootdir, includepathsFile)` (lines 53-60): one
`-isystem` flag per line of the include-paths file, joined by spaces. -/
def get_include_paths (env : Env) (rootdir includepathsFile : String) : String :=
  String.intercalate " "
    ((env.fileLines includepathsFile).map
      (fun line => "-isystem " ++ rootdir ++ line))

/-- The serialized output document (lines 255-269): `functions` and `calls`
are the items of the two global tables, `called_syscalls` and
`define_syscalls` the two classification results. -/
structure OutDoc where
  functions : Table
  calls : Table
  called_syscalls : Table
  define_syscalls : Table
  deriving DecidableEq

/-- The `main` pipeline after argument parsing (lines 245-276): echo the
include flags unconditionally when an include file is given (line 247 is
not gated by silent), scan the input path, print the separator banner
unless silent, snapshot the tables into `functions`/`calls`, classify
against the syscall list, and assemble the document.  Returns the printed
progress messages and the document, or the error aborting the run. -/
def main_model (env : Env) (silent : Bool) (includeOpt : Option String)
    (folder : String) (syscalls : List String) :
    Except String (List String × OutDoc) :=
  let echoAndInc : List String × Option String :=
    match includeOpt with
    | some incFile =>
        let ip := get_include_paths env folder incFile
        ([ip], some ip)
    | none => ([], none)
  match check_input_path env silent folder echoAndInc.2 ⟨[], []⟩ with
  | .error e => .error e
  | .ok out =>
      let sepMsgs :=
        if silent then []
        else ["---------------------------------------------------------"]
      let functions := out.g.global_funcs
      let calls := out.g.global_calls
      let cmp := compare_syscalls silent out.g syscalls
      .ok (echoAndInc.1 ++ out.msgs ++ sepMsgs ++ cmp.1,
           ⟨functions, calls, cmp.2.2.1, cmp.2.2.2⟩)

/-! ### Concrete fixtures used by counterexamples and witnesses -/

/-- A function declaration `read` located in the unit's primary file. -/
def declRead : Node :=
  .mk .functionDecl "read" "read(int)" (some "a.c") 1 none []

/-- A call expression on `read` located in the primary file. -/
def callRead1 : Node :=
  .mk .callExpr "read" "read(0)" (some "a.c") 10 (some 1) []

/-- A second call expression on `read` in the primary file. -/
def callRead2 : Node :=
  .mk .callExpr "read" "read(1)" (some "a.c") 11 (some 1) []

/-- A declaration located in an included header, not the primary file. -/
def hdrDecl : Node :=
  .mk .functionDecl "open" "open(const char *)" (some "h.h") 2 none []

/-- A translation-unit cursor whose spelling is the primary file `a.c`. -/
def tuEx : Node :=
  .mk .translationUnit "a.c" "a.c" none 0 none
    [declRead, callRead1, callRead2, hdrDecl]

/-- An environment whose every path is a regular file. -/
def envEx : Env :=
  ⟨fun _ => .file, fun _ => [], fun _ => tuEx, fun _ => ["/x"]⟩

/-- An environment whose every path is neither a directory nor a file. -/
def envNeither : Env :=
  ⟨fun _ => .neither, fun _ => [], fun _ => tuEx, fun _ => ["/x"]⟩

/-- Semantic cursor: a translation-unit root. -/
def tuSem : SemNode := .mk .translationUnit "t.cpp" none

/-- Semantic cursor: namespace `ns` at the root. -/
def nsSem : SemNode := .mk .namespaceK "ns" (some tuSem)

/-- Semantic cursor: an unnamed scope nested inside `ns`. -/
def anonSem : SemNode := .mk .namespaceK "" (some nsSem)

/-- Semantic cursor: function `bar` inside the unnamed scope inside `ns`. -/
def barAnonSem : SemNode := .mk .functionDecl "bar" (some anonSem)

/-- Semantic cursor: function `bar` directly inside namespace `ns`. -/
def barSem : SemNode := .mk .functionDecl "bar" (some nsSem)

/-- Semantic cursor: free function `baz` at file scope. -/
def bazSem : SemNode := .mk .functionDecl "baz" (some tuSem)

/-! ### Helper lemmas -/

theorem splitOnChar_ne_nil (sep : Char) (l : List Char) :
    splitOnChar sep l ≠ [] := by
  induction l with
  | nil => simp [splitOnChar]
  | cons c rest ih =>
      simp only [splitOnChar]
      split
      · simp
      · split
        · simp
        · simp

theorem splitOnChar_headD (sep : Char) (l : List Char) :
    (splitOnChar sep l).headD [] = l.takeWhile (fun c => c ≠ sep) := by
  induction l with
  | nil => rfl
  | cons c rest ih =>
      simp only [splitOnChar]
      by_cases h : c = sep
      · simp [h, List.takeWhile]
      · have hne := splitOnChar_ne_nil sep rest
        cases hsp : splitOnChar sep rest with
        | nil => exact absurd hsp hne
        | cons hd tl =>
            rw [hsp] at ih
            simp only [List.headD] at ih
            simp [h, hsp, List.takeWhile, ih]

mutual

theorem fqOpt_eq_foldl : ∀ c : Option SemNode,
    fully_qualified c = (pathSpellingsOpt c).foldl joinStep ""
  | none => rfl
  | some n => by
      simp only [fully_qualified, pathSpellingsOpt]
      exact fqNode_eq_foldl n

theorem fqNode_eq_foldl : ∀ n : SemNode,
    fqNode n = (pathSpellings n).foldl joinStep ""
  | .mk k sp p => by
      simp only [fqNode, pathSpellings]
      by_cases hk : k = CursorKind.translationUnit
      · simp [hk]
      · have ih := fqOpt_eq_foldl p
        simp only [hk, if_false, List.foldl_append, ← ih]
        simp [joinStep]

end

mutual

theorem fqFuel_chainDepth : ∀ c : Option SemNode,
    fqFuel (chainDepth c + 1) c = some (fully_qualified c)
  | none => rfl
  | some n => fqFuelN n

theorem fqFuelN : ∀ n : SemNode,
    fqFuel (chainDepth (some n) + 1) (some n) = some (fqNode n)
  | .mk k sp p => by
      have ih := fqFuel_chainDepth p
      simp only [chainDepth, chainDepthN, fqFuel, fqNode, ih]
      by_cases hk : k = CursorKind.translationUnit
      · simp [hk]
      · simp [hk]

end

/-! ### Claim theorems -/

/-- C3: for every display name, if it contains `(` the normalized key is the
substring strictly before the first `(`; otherwise the key is the display
name unchanged. -/
theorem claim_C3 (s : String) :
    ('(' ∈ s.data →
      filter_func_name s = String.mk (s.data.takeWhile (fun c => c ≠ '('))) ∧
    ('(' ∉ s.data → filter_func_name s = s) := by
  constructor
  · intro h
    simp only [filter_func_name, if_pos h, splitOnChar_headD]
  · intro h
    simp [filter_func_name, h]

/-- Witness for C3 at the concrete display names `foo(int, char)`
and `bar`. -/
theorem claim_C3_witness :
    ('(' ∈ "foo(int, char)".data ∧
      filter_func_name "foo(int, char)" =
        String.mk ("foo(int, char)".data.takeWhile (fun c => c ≠ '('))) ∧
    ('(' ∉ "bar".data ∧ filter_func_name "bar" = "bar") :=
  ⟨⟨by decide, (claim_C3 "foo(int, char)").1 (by decide)⟩,
   ⟨by decide, (claim_C3 "bar").2 (by decide)⟩⟩

/-- C5 counterexample: for `bar` inside an unnamed scope inside namespace
`ns`, the resolver returns `ns::::bar`, not the empty-segments-skipped join
`ns::bar` which the claim prescribes — an unnamed ancestor below a named
one does introduce a dangling `::`. -/
theorem claim_C5_cex :
    pathSpellings barAnonSem = ["ns", "", "bar"] ∧
    specQualifiedJoin (pathSpellings barAnonSem) = "ns::bar" ∧
    fully_qualified (some barAnonSem) = "ns::::bar" ∧
    fully_qualified (some barAnonSem) ≠ specQualifiedJoin (pathSpellings barAnonSem) := by
  refine ⟨rfl, rfl, rfl, ?_⟩
  decide

/-- C5 (amended): the resolver returns the ancestor spellings from the
translation-unit root (exclusive) to the node (inclusive) joined left to
right, where a segment is appended with `::` unless the accumulated prefix
is still empty — so unnamed scopes are skipped only while the prefix is
empty, and an unnamed scope below a named one contributes an empty segment
(a doubled `::`).  In particular `bar` directly inside namespace `ns`
resolves to `ns::bar` and the free function `baz` resolves to `baz`. -/
theorem claim_C5 :
    (∀ c : Option SemNode,
        fully_qualified c = (pathSpellingsOpt c).foldl joinStep "") ∧
    fully_qualified (some barSem) = "ns::bar" ∧
    fully_qualified (some bazSem) = "baz" :=
  ⟨fqOpt_eq_foldl, rfl, rfl⟩

/-- C6: the call-resolver predicate is true exactly when the resolved
definition link is present and identical, by cursor identity, to the
declaration; an absent link yields `false` by branching (the predicate is a
total function). -/
theorem claim_C6 (funcdecl c : Node) :
    (is_function_call funcdecl c = true ↔ c.defnId = some funcdecl.nid) ∧
    (c.defnId = none → is_function_call funcdecl c = false) := by
  constructor
  · unfold is_function_call
    cases h : c.defnId with
    | none => simp
    | some d => simp
  · intro h
    unfold is_function_call
    rw [h]

/-- Witness for C6: `declRead` has no resolved-definition link, and the
predicate returns `false` on it. -/
theorem claim_C6_witness :
    declRead.defnId = none ∧ is_function_call declRead declRead = false :=
  ⟨rfl, (claim_C6 declRead declRead).2 rfl⟩

/-- C9: the recursive qualified-name resolver terminates on every finite
semantic-parent chain: with fuel one larger than the chain length, the
fuel-indexed recursion completes and returns the resolver's value. -/
theorem claim_C9 : ∀ c : Option SemNode,
    fqFuel (chainDepth c + 1) c = some (fully_qualified c) :=
  fqFuel_chainDepth

theorem classifyPass_fst (sys : List String) :
    ∀ (l : Table) (g : GState) (acc : Table),
      (classifyPass sys g acc l).1 = g := by
  intro l
  induction l with
  | nil => intro g acc; rfl
  | cons kv rest ih =>
      intro g acc
      simp only [classifyPass]
      split
      · exact ih g (acc ++ [kv])
      · exact ih g acc

theorem classifyPass_snd (sys : List String) :
    ∀ (l : Table) (g : GState) (acc : Table),
      (classifyPass sys g acc l).2
        = acc ++ l.filter (fun kv => decide (kv.1 ∈ sys)) := by
  intro l
  induction l with
  | nil => intro g acc; simp [classifyPass]
  | cons kv rest ih =>
      intro g acc
      simp only [classifyPass, List.filter_cons]
      by_cases h : kv.1 ∈ sys
      · rw [if_pos h, ih]
        simp [h]
      · rw [if_neg h, ih]
        simp [h]

theorem lookupTab_filter_mem (sys : List String) (name : String) :
    ∀ (t : Table) (v : Nat × List String),
      lookupTab t name = some v → name ∈ sys →
      lookupTab (t.filter (fun kv => decide (kv.1 ∈ sys))) name = some v := by
  intro t
  induction t with
  | nil => intro v h; simp [lookupTab] at h
  | cons kv rest ih =>
      intro v h hm
      obtain ⟨k, w⟩ := kv
      simp only [lookupTab] at h
      by_cases hk : k = name
      · subst hk
        rw [if_pos rfl] at h
        rw [List.filter_cons]
        simp only [hm, decide_eq_true_eq, if_pos hm]
        simp [lookupTab, h]
      · rw [if_neg hk] at h
        rw [List.filter_cons]
        by_cases hks : k ∈ sys
        · simp only [hks, if_pos, decide_eq_true_eq]
          simp only [lookupTab, if_neg hk]
          exact ih v h hm
        · simp only [hks, decide_eq_true_eq, if_neg]
          exact ih v h hm

/-- C10: the syscall classification passes leave the global aggregation
state — both tables, every key, every count, every file list — completely
unchanged. -/
theorem claim_C10 (silent : Bool) (g : GState) (syscalls : List String) :
    (compare_syscalls silent g syscalls).2.1 = g ∧
    (∀ name, lookupTab (compare_syscalls silent g syscalls).2.1.global_funcs name
        = lookupTab g.global_funcs name) ∧
    (∀ name, lookupTab (compare_syscalls silent g syscalls).2.1.global_calls name
        = lookupTab g.global_calls name) := by
  have h : (compare_syscalls silent g syscalls).2.1 = g := by
    simp only [compare_syscalls, classifyPass_fst]
  exact ⟨h, fun name => by rw [h], fun name => by rw [h]⟩

/-- C4: every name of the call table that lies in the syscall set appears in
`called_syscalls` with its record unchanged; independently every name of
the declaration table in the syscall set appears in `define_syscalls` with
its record unchanged; a name in both tables and the set appears in both
result groups, each with its own table's record. -/
theorem claim_C4 (silent : Bool) (g : GState) (syscalls : List String)
    (name : String) :
    (∀ v, lookupTab g.global_calls name = some v → name ∈ syscalls →
      lookupTab (compare_syscalls silent g syscalls).2.2.1 name = some v) ∧
    (∀ v, lookupTab g.global_funcs name = some v → name ∈ syscalls →
      lookupTab (compare_syscalls silent g syscalls).2.2.2 name = some v) ∧
    (∀ vc vf, lookupTab g.global_calls name = some vc →
      lookupTab g.global_funcs name = some vf → name ∈ syscalls →
      lookupTab (compare_syscalls silent g syscalls).2.2.1 name = some vc ∧
      lookupTab (compare_syscalls silent g syscalls).2.2.2 name = some vf) := by
  have hcalled : (compare_syscalls silent g syscalls).2.2.1
      = g.global_calls.filter (fun kv => decide (kv.1 ∈ syscalls)) := by
    simp only [compare_syscalls, classifyPass_snd]
    simp
  have hdefined : (compare_syscalls silent g syscalls).2.2.2
      = g.global_funcs.filter (fun kv => decide (kv.1 ∈ syscalls)) := by
    simp only [compare_syscalls, classifyPass_fst, classifyPass_snd]
    simp
  refine ⟨?_, ?_, ?_⟩
  · intro v hv hm
    rw [hcalled]
    exact lookupTab_filter_mem syscalls name g.global_calls v hv hm
  · intro v hv hm
    rw [hdefined]
    exact lookupTab_filter_mem syscalls name g.global_funcs v hv hm
  · intro vc vf hvc hvf hm
    constructor
    · rw [hcalled]
      exact lookupTab_filter_mem syscalls name g.global_calls vc hvc hm
    · rw [hdefined]
      exact lookupTab_filter_mem syscalls name g.global_funcs vf hvf hm

/-- Witness for C4: the name `read` sits in both concrete tables and in the
syscall set, and appears in both result groups with each table's own
record. -/
theorem claim_C4_witness :
    lookupTab [("read", 2, ["a.c"])] "read" = some (2, ["a.c"]) ∧
    lookupTab [("read", 1, ["a.c"])] "read" = some (1, ["a.c"]) ∧
    "read" ∈ ["read", "write"] ∧
    lookupTab (compare_syscalls false ⟨[("read", 1, ["a.c"])], [("read", 2, ["a.c"])]⟩
        ["read", "write"]).2.2.1 "read" = some (2, ["a.c"]) ∧
    lookupTab (compare_syscalls false ⟨[("read", 1, ["a.c"])], [("read", 2, ["a.c"])]⟩
        ["read", "write"]).2.2.2 "read" = some (1, ["a.c"]) := by
  have h := (claim_C4 false ⟨[("read", 1, ["a.c"])], [("read", 2, ["a.c"])]⟩
      ["read", "write"] "read").2.2 (2, ["a.c"]) (1, ["a.c"])
      (by decide) (by decide) (by decide)
  exact ⟨by decide, by decide, by decide, h.1, h.2⟩

theorem lookupTab_append (t1 t2 : Table) (key : String) :
    lookupTab (t1 ++ t2) key =
      match lookupTab t1 key with
      | some v => some v
      | none => lookupTab t2 key := by
  induction t1 with
  | nil => simp [lookupTab]
  | cons kv rest ih =>
      obtain ⟨k, v⟩ := kv
      simp only [List.cons_append, lookupTab]
      by_cases hk : k = key
      · simp [hk]
      · simp [hk, ih]

theorem lookupTab_mem :
    ∀ (t : Table) (key : String) (v : Nat × List String),
      lookupTab t key = some v → (key, v) ∈ t := by
  intro t
  induction t with
  | nil => intro key v h; simp [lookupTab] at h
  | cons kv rest ih =>
      intro key v h
      obtain ⟨k, w⟩ := kv
      simp only [lookupTab] at h
      by_cases hk : k = key
      · subst hk
        rw [if_pos rfl] at h
        cases h
        exact List.mem_cons_self _ _
      · rw [if_neg hk] at h
        exact List.mem_cons_of_mem _ (ih key v h)

theorem lookupTab_updateTab_self :
    ∀ (t : Table) (key : String) (v nv : Nat × List String),
      lookupTab t key = some v →
      lookupTab (updateTab t key nv) key = some nv := by
  intro t
  induction t with
  | nil => intro key v nv h; simp [lookupTab] at h
  | cons kv rest ih =>
      intro key v nv h
      obtain ⟨k, w⟩ := kv
      simp only [lookupTab] at h
      simp only [updateTab]
      by_cases hk : k = key
      · rw [if_pos hk]
        simp [lookupTab, hk]
      · rw [if_neg hk] at h
        rw [if_neg hk]
        simp only [lookupTab, if_neg hk]
        exact ih key v nv h

theorem lookupTab_updateTab_other :
    ∀ (t : Table) (key key' : String) (nv : Nat × List String),
      key' ≠ key →
      lookupTab (updateTab t key nv) key' = lookupTab t key' := by
  intro t
  induction t with
  | nil => intro key key' nv h; rfl
  | cons kv rest ih =>
      intro key key' nv h
      obtain ⟨k, w⟩ := kv
      simp only [updateTab]
      by_cases hk : k = key
      · rw [if_pos hk]
        have hk' : k ≠ key' := by
          rw [hk]
          exact fun hcon => h hcon.symm
        simp [lookupTab, hk']
      · rw [if_neg hk]
        simp only [lookupTab]
        by_cases hkk : k = key'
        · simp [hkk]
        · simp [hkk, ih key key' nv h]

theorem mem_updateTab :
    ∀ (t : Table) (key : String) (nv : Nat × List String) (kv : String × Nat × List String),
      kv ∈ updateTab t key nv → kv ∈ t ∨ kv = (key, nv) := by
  intro t
  induction t with
  | nil => intro key nv kv h; simp [updateTab] at h
  | cons hd rest ih =>
      intro key nv kv h
      obtain ⟨k, w⟩ := hd
      simp only [updateTab] at h
      by_cases hk : k = key
      · rw [if_pos hk] at h
        rcases List.mem_cons.mp h with h1 | h2
        · right
          rw [h1, hk]
        · left
          exact List.mem_cons_of_mem _ h2
      · rw [if_neg hk] at h
        rcases List.mem_cons.mp h with h1 | h2
        · left
          rw [h1]
          exact List.mem_cons_self _ _
        · rcases ih key nv kv h2 with h3 | h4
          · left
            exact List.mem_cons_of_mem _ h3
          · right
            exact h4

theorem countOf_record_self (t : Table) (name f : String) :
    countOf (record t name f) name = countOf t name + 1 := by
  unfold record
  cases h : lookupTab t name with
  | none =>
      unfold countOf
      rw [lookupTab_append]
      simp [h, lookupTab]
  | some v =>
      obtain ⟨cnt, files⟩ := v
      unfold countOf
      rw [lookupTab_updateTab_self t name (cnt, files) _ h, h]
      rfl

theorem lookupTab_record_other (t : Table) (name f name' : String)
    (h : name' ≠ name) :
    lookupTab (record t name f) name' = lookupTab t name' := by
  unfold record
  cases hl : lookupTab t name with
  | none =>
      rw [lookupTab_append]
      cases hl' : lookupTab t name' with
      | none =>
          simp only [hl', lookupTab]
          rw [if_neg (fun hc => h hc.symm)]
      | some w => simp [hl']
  | some v =>
      obtain ⟨cnt, files⟩ := v
      exact lookupTab_updateTab_other t name name' _ h

theorem countOf_record_other (t : Table) (name f name' : String)
    (h : name' ≠ name) :
    countOf (record t name f) name' = countOf t name' := by
  unfold countOf
  rw [lookupTab_record_other t name f name' h]

theorem filesOf_record_other (t : Table) (name f name' : String)
    (h : name' ≠ name) :
    filesOf (record t name f) name' = filesOf t name' := by
  unfold filesOf
  rw [lookupTab_record_other t name f name' h]

theorem mem_filesOf_record_self (t : Table) (name f : String) :
    f ∈ filesOf (record t name f) name := by
  unfold record
  cases h : lookupTab t name with
  | none =>
      unfold filesOf
      rw [lookupTab_append]
      simp [h, lookupTab]
  | some v =>
      obtain ⟨cnt, files⟩ := v
      unfold filesOf
      rw [lookupTab_updateTab_self t name (cnt, files) _ h]
      by_cases hf : f ∈ files
      · simp [hf]
      · simp [hf]

theorem mem_filesOf_record_mono (t : Table) (name f name' x : String)
    (h : x ∈ filesOf t name') :
    x ∈ filesOf (record t name f) name' := by
  by_cases hn : name' = name
  · subst hn
    unfold record
    cases hl : lookupTab t name' with
    | none =>
        unfold filesOf at h
        rw [hl] at h
        simp at h
    | some v =>
        obtain ⟨cnt, files⟩ := v
        unfold filesOf at h ⊢
        rw [hl] at h
        rw [lookupTab_updateTab_self t name' (cnt, files) _ hl]
        simp only [Option.map_some', Option.getD_some] at h ⊢
        by_cases hf : f ∈ files
        · simpa [hf] using h
        · simp only [hf, if_false]
          exact List.mem_append_left _ h
  · rw [filesOf_record_other t name f name' hn]
    exact h

theorem WFfiles_record (t : Table) (name f : String) (h : WFfiles t) :
    WFfiles (record t name f) := by
  unfold record
  cases hl : lookupTab t name with
  | none =>
      intro kv hkv
      rcases List.mem_append.mp hkv with h1 | h2
      · exact h kv h1
      · simp only [List.mem_singleton] at h2
        rw [h2]
        exact List.nodup_singleton f
  | some v =>
      obtain ⟨cnt, files⟩ := v
      intro kv hkv
      rcases mem_updateTab t name _ kv hkv with h1 | h2
      · exact h kv h1
      · rw [h2]
        have hfiles : files.Nodup := h (name, cnt, files) (lookupTab_mem t name _ hl)
        by_cases hf : f ∈ files
        · simpa [hf] using hfiles
        · simp only [hf, if_false]
          simp only [List.nodup_append, List.nodup_singleton]
          exact ⟨hfiles, by simpa using hf⟩

theorem filesOf_nodup (t : Table) (name : String) (h : WFfiles t) :
    (filesOf t name).Nodup := by
  unfold filesOf
  cases hl : lookupTab t name with
  | none => simp
  | some v =>
      simp only [Option.map_some', Option.getD_some]
      exact h (name, v) (lookupTab_mem t name v hl)

theorem processNode_global_calls (filename : String) (st : AState) (c : Node) :
    (processNode filename st c).g.global_calls
      = if (decide (c.locFile = some filename)
            && decide (c.kind = CursorKind.callExpr)) = true
        then record st.g.global_calls (filter_func_name c.displayname) filename
        else st.g.global_calls := by
  unfold processNode
  by_cases h0 : c.locFile = none
  · rw [if_pos h0]
    simp [h0]
  · rw [if_neg h0]
    by_cases h1 : c.locFile ≠ some filename
    · rw [if_pos h1]
      simp [h1]
    · rw [if_neg h1]
      have h2 : c.locFile = some filename := not_not.mp h1
      by_cases hk : c.kind = CursorKind.callExpr
      · rw [if_pos hk]
        simp [h2, hk]
      · rw [if_neg hk]
        by_cases hk2 : c.kind = CursorKind.functionDecl
        · rw [if_pos hk2]
          simp [hk]
        · rw [if_neg hk2]
          simp [hk]

theorem processNode_global_funcs (filename : String) (st : AState) (c : Node) :
    (processNode filename st c).g.global_funcs
      = if (decide (c.locFile = some filename)
            && decide (c.kind = CursorKind.functionDecl)) = true
        then record st.g.global_funcs (filter_func_name c.displayname) filename
        else st.g.global_funcs := by
  unfold processNode
  by_cases h0 : c.locFile = none
  · rw [if_pos h0]
    simp [h0]
  · rw [if_neg h0]
    by_cases h1 : c.locFile ≠ some filename
    · rw [if_pos h1]
      simp [h1]
    · rw [if_neg h1]
      have h2 : c.locFile = some filename := not_not.mp h1
      by_cases hk : c.kind = CursorKind.callExpr
      · rw [if_pos hk]
        have hk2 : c.kind ≠ CursorKind.functionDecl := by
          rw [hk]
          intro hcon
          cases hcon
        simp [hk2]
      · rw [if_neg hk]
        by_cases hk2 : c.kind = CursorKind.functionDecl
        · rw [if_pos hk2]
          simp [h2, hk2]
        · rw [if_neg hk2]
          simp [hk2]

theorem processNode_funcs_list (filename : String) (st : AState) (c : Node) :
    (processNode filename st c).funcs
      = if (decide (c.locFile = some filename)
            && decide (c.kind = CursorKind.functionDecl)) = true
        then st.funcs ++ [c] else st.funcs := by
  unfold processNode
  by_cases h0 : c.locFile = none
  · rw [if_pos h0]
    simp [h0]
  · rw [if_neg h0]
    by_cases h1 : c.locFile ≠ some filename
    · rw [if_pos h1]
      simp [h1]
    · rw [if_neg h1]
      have h2 : c.locFile = some filename := not_not.mp h1
      by_cases hk : c.kind = CursorKind.callExpr
      · rw [if_pos hk]
        have hk2 : c.kind ≠ CursorKind.functionDecl := by
          rw [hk]
          intro hcon
          cases hcon
        simp [hk2]
      · rw [if_neg hk]
        by_cases hk2 : c.kind = CursorKind.functionDecl
        · rw [if_pos hk2]
          simp [h2, hk2]
        · rw [if_neg hk2]
          simp [hk2]

theorem processNode_calls_list (filename : String) (st : AState) (c : Node) :
    (processNode filename st c).calls
      = if (decide (c.locFile = some filename)
            && decide (c.kind = CursorKind.callExpr)) = true
        then st.calls ++ [c] else st.calls := by
  unfold processNode
  by_cases h0 : c.locFile = none
  · rw [if_pos h0]
    simp [h0]
  · rw [if_neg h0]
    by_cases h1 : c.locFile ≠ some filename
    · rw [if_pos h1]
      simp [h1]
    · rw [if_neg h1]
      have h2 : c.locFile = some filename := not_not.mp h1
      by_cases hk : c.kind = CursorKind.callExpr
      · rw [if_pos hk]
        simp [h2, hk]
      · rw [if_neg hk]
        by_cases hk2 : c.kind = CursorKind.functionDecl
        · rw [if_pos hk2]
          simp [hk]
        · rw [if_neg hk2]
          simp [hk]

theorem processNode_skip (filename : String) (st : AState) (c : Node)
    (h : c.locFile = none ∨ c.locFile ≠ some filename) :
    processNode filename st c = st := by
  unfold processNode
  rcases h with h1 | h2
  · rw [if_pos h1]
  · by_cases h0 : c.locFile = none
    · rw [if_pos h0]
    · rw [if_neg h0, if_pos h2]

theorem processNode_count_calls (filename name : String) (st : AState) (c : Node) :
    countOf (processNode filename st c).g.global_calls name
      = countOf st.g.global_calls name
        + (if (decide (c.locFile = some filename)
               && decide (c.kind = CursorKind.callExpr)
               && decide (filter_func_name c.displayname = name)) = true
           then 1 else 0) := by
  rw [processNode_global_calls]
  by_cases h1 : (decide (c.locFile = some filename)
      && decide (c.kind = CursorKind.callExpr)) = true
  · rw [if_pos h1]
    by_cases h2 : filter_func_name c.displayname = name
    · rw [h2, countOf_record_self]
      simp [h1]
    · rw [countOf_record_other _ _ _ _ (Ne.symm h2)]
      simp [h2]
  · rw [if_neg h1]
    have hf : (decide (c.locFile = some filename)
        && decide (c.kind = CursorKind.callExpr)) = false := by
      revert h1
      cases decide (c.locFile = some filename) && decide (c.kind = CursorKind.callExpr) <;> simp
    simp [hf]

theorem processNode_count_funcs (filename name : String) (st : AState) (c : Node) :
    countOf (processNode filename st c).g.global_funcs name
      = countOf st.g.global_funcs name
        + (if (decide (c.locFile = some filename)
               && decide (c.kind = CursorKind.functionDecl)
               && decide (filter_func_name c.displayname = name)) = true
           then 1 else 0) := by
  rw [processNode_global_funcs]
  by_cases h1 : (decide (c.locFile = some filename)
      && decide (c.kind = CursorKind.functionDecl)) = true
  · rw [if_pos h1]
    by_cases h2 : filter_func_name c.displayname = name
    · rw [h2, countOf_record_self]
      simp [h1]
    · rw [countOf_record_other _ _ _ _ (Ne.symm h2)]
      simp [h2]
  · rw [if_neg h1]
    have hf : (decide (c.locFile = some filename)
        && decide (c.kind = CursorKind.functionDecl)) = false := by
      revert h1
      cases decide (c.locFile = some filename) && decide (c.kind = CursorKind.functionDecl) <;> simp
    simp [hf]

theorem processNode_files_mono_calls (filename name x : String) (st : AState)
    (c : Node) (h : x ∈ filesOf st.g.global_calls name) :
    x ∈ filesOf (processNode filename st c).g.global_calls name := by
  rw [processNode_global_calls]
  split
  · exact mem_filesOf_record_mono _ _ _ _ _ h
  · exact h

theorem processNode_files_mono_funcs (filename name x : String) (st : AState)
    (c : Node) (h : x ∈ filesOf st.g.global_funcs name) :
    x ∈ filesOf (processNode filename st c).g.global_funcs name := by
  rw [processNode_global_funcs]
  split
  · exact mem_filesOf_record_mono _ _ _ _ _ h
  · exact h

theorem processNode_files_self_calls (filename name : String) (st : AState)
    (c : Node)
    (h : (decide (c.locFile = some filename)
          && decide (c.kind = CursorKind.callExpr)
          && decide (filter_func_name c.displayname = name)) = true) :
    filename ∈ filesOf (processNode filename st c).g.global_calls name := by
  simp only [Bool.and_eq_true, decide_eq_true_eq] at h
  rw [processNode_global_calls, if_pos (by simp [h.1.1, h.1.2]), h.2]
  exact mem_filesOf_record_self _ _ _

theorem processNode_files_self_funcs (filename name : String) (st : AState)
    (c : Node)
    (h : (decide (c.locFile = some filename)
          && decide (c.kind = CursorKind.functionDecl)
          && decide (filter_func_name c.displayname = name)) = true) :
    filename ∈ filesOf (processNode filename st c).g.global_funcs name := by
  simp only [Bool.and_eq_true, decide_eq_true_eq] at h
  rw [processNode_global_funcs, if_pos (by simp [h.1.1, h.1.2]), h.2]
  exact mem_filesOf_record_self _ _ _

theorem processNode_WF_calls (filename : String) (st : AState) (c : Node)
    (h : WFfiles st.g.global_calls) :
    WFfiles (processNode filename st c).g.global_calls := by
  rw [processNode_global_calls]
  split
  · exact WFfiles_record _ _ _ h
  · exact h

theorem processNode_WF_funcs (filename : String) (st : AState) (c : Node)
    (h : WFfiles st.g.global_funcs) :
    WFfiles (processNode filename st c).g.global_funcs := by
  rw [processNode_global_funcs]
  split
  · exact WFfiles_record _ _ _ h
  · exact h

theorem foldl_count_calls (filename name : String) :
    ∀ (ns : List Node) (st : AState),
      countOf ((ns.foldl (processNode filename) st).g.global_calls) name
        = countOf st.g.global_calls name
          + ns.countP (fun c =>
              decide (c.locFile = some filename)
              && decide (c.kind = CursorKind.callExpr)
              && decide (filter_func_name c.displayname = name)) := by
  intro ns
  induction ns with
  | nil => intro st; simp
  | cons c rest ih =>
      intro st
      rw [List.foldl_cons, ih, processNode_count_calls]
      simp only [List.countP_cons]
      omega

theorem foldl_count_funcs (filename name : String) :
    ∀ (ns : List Node) (st : AState),
      countOf ((ns.foldl (processNode filename) st).g.global_funcs) name
        = countOf st.g.global_funcs name
          + ns.countP (fun c =>
              decide (c.locFile = some filename)
              && decide (c.kind = CursorKind.functionDecl)
              && decide (filter_func_name c.displayname = name)) := by
  intro ns
  induction ns with
  | nil => intro st; simp
  | cons c rest ih =>
      intro st
      rw [List.foldl_cons, ih, processNode_count_funcs]
      simp only [List.countP_cons]
      omega

theorem foldl_files_mono_calls (filename name x : String) :
    ∀ (ns : List Node) (st : AState),
      x ∈ filesOf st.g.global_calls name →
      x ∈ filesOf ((ns.foldl (processNode filename) st).g.global_calls) name := by
  intro ns
  induction ns with
  | nil => intro st h; exact h
  | cons c rest ih =>
      intro st h
      rw [List.foldl_cons]
      exact ih _ (processNode_files_mono_calls filename name x st c h)

theorem foldl_files_mono_funcs (filename name x : String) :
    ∀ (ns : List Node) (st : AState),
      x ∈ filesOf st.g.global_funcs name →
      x ∈ filesOf ((ns.foldl (processNode filename) st).g.global_funcs) name := by
  intro ns
  induction ns with
  | nil => intro st h; exact h
  | cons c rest ih =>
      intro st h
      rw [List.foldl_cons]
      exact ih _ (processNode_files_mono_funcs filename name x st c h)

theorem foldl_files_self_calls (filename name : String) :
    ∀ (ns : List Node) (st : AState),
      0 < ns.countP (fun c =>
          decide (c.locFile = some filename)
          && decide (c.kind = CursorKind.callExpr)
          && decide (filter_func_name c.displayname = name)) →
      filename ∈ filesOf ((ns.foldl (processNode filename) st).g.global_calls) name := by
  intro ns
  induction ns with
  | nil => intro st h; simp at h
  | cons c rest ih =>
      intro st h
      rw [List.foldl_cons]
      by_cases hc : (decide (c.locFile = some filename)
          && decide (c.kind = CursorKind.callExpr)
          && decide (filter_func_name c.displayname = name)) = true
      · exact foldl_files_mono_calls filename name filename rest _
          (processNode_files_self_calls filename name st c hc)
      · apply ih
        simp only [List.countP_cons, hc] at h
        simpa using h

theorem foldl_files_self_funcs (filename name : String) :
    ∀ (ns : List Node) (st : AState),
      0 < ns.countP (fun c =>
          decide (c.locFile = some filename)
          && decide (c.kind = CursorKind.functionDecl)
          && decide (filter_func_name c.displayname = name)) →
      filename ∈ filesOf ((ns.foldl (processNode filename) st).g.global_funcs) name := by
  intro ns
  induction ns with
  | nil => intro st h; simp at h
  | cons c rest ih =>
      intro st h
      rw [List.foldl_cons]
      by_cases hc : (decide (c.locFile = some filename)
          && decide (c.kind = CursorKind.functionDecl)
          && decide (filter_func_name c.displayname = name)) = true
      · exact foldl_files_mono_funcs filename name filename rest _
          (processNode_files_self_funcs filename name st c hc)
      · apply ih
        simp only [List.countP_cons, hc] at h
        simpa using h

theorem foldl_WF_calls (filename : String) :
    ∀ (ns : List Node) (st : AState),
      WFfiles st.g.global_calls →
      WFfiles ((ns.foldl (processNode filename) st).g.global_calls) := by
  intro ns
  induction ns with
  | nil => intro st h; exact h
  | cons c rest ih =>
      intro st h
      rw [List.foldl_cons]
      exact ih _ (processNode_WF_calls filename st c h)

theorem foldl_WF_funcs (filename : String) :
    ∀ (ns : List Node) (st : AState),
      WFfiles st.g.global_funcs →
      WFfiles ((ns.foldl (processNode filename) st).g.global_funcs) := by
  intro ns
  induction ns with
  | nil => intro st h; exact h
  | cons c rest ih =>
      intro st h
      rw [List.foldl_cons]
      exact ih _ (processNode_WF_funcs filename st c h)

/-- C1: processing one compilation unit adds exactly the number of
qualifying occurrences to each table's count for every name (an absent name
ends at exactly that number), and whenever at least one occurrence
qualified, the unit's file path occurs exactly once in the record's file
list afterwards — for any prior state whose file lists are duplicate-free,
which covers arbitrary re-processing of the same file in one run; the
invariant itself is preserved. -/
theorem claim_C1 (tu : Node) (g : GState) (name : String)
    (hwc : WFfiles g.global_calls) (hwf : WFfiles g.global_funcs) :
    countOf (find_funcs_and_calls tu g).2.global_calls name
      = countOf g.global_calls name + callOcc tu name ∧
    (1 ≤ callOcc tu name →
      (filesOf (find_funcs_and_calls tu g).2.global_calls name).count tu.spelling = 1) ∧
    countOf (find_funcs_and_calls tu g).2.global_funcs name
      = countOf g.global_funcs name + declOcc tu name ∧
    (1 ≤ declOcc tu name →
      (filesOf (find_funcs_and_calls tu g).2.global_funcs name).count tu.spelling = 1) ∧
    WFfiles (find_funcs_and_calls tu g).2.global_calls ∧
    WFfiles (find_funcs_and_calls tu g).2.global_funcs := by
  simp only [find_funcs_and_calls, callOcc, declOcc]
  refine ⟨?_, ?_, ?_, ?_, ?_, ?_⟩
  · exact foldl_count_calls tu.spelling name (walk_preorder tu) ⟨[], [], g⟩
  · intro h
    exact List.count_eq_one_of_mem
      (filesOf_nodup _ _ (foldl_WF_calls tu.spelling (walk_preorder tu) ⟨[], [], g⟩ hwc))
      (foldl_files_self_calls tu.spelling name (walk_preorder tu) ⟨[], [], g⟩ (by omega))
  · exact foldl_count_funcs tu.spelling name (walk_preorder tu) ⟨[], [], g⟩
  · intro h
    exact List.count_eq_one_of_mem
      (filesOf_nodup _ _ (foldl_WF_funcs tu.spelling (walk_preorder tu) ⟨[], [], g⟩ hwf))
      (foldl_files_self_funcs tu.spelling name (walk_preorder tu) ⟨[], [], g⟩ (by omega))
  · exact foldl_WF_calls tu.spelling (walk_preorder tu) ⟨[], [], g⟩ hwc
  · exact foldl_WF_funcs tu.spelling (walk_preorder tu) ⟨[], [], g⟩ hwf

/-- Witness for C1: the concrete unit `tuEx` (primary file `a.c`) contains
two qualifying calls and one qualifying declaration of `read`; starting
from empty tables the call count ends at 2, the declaration count at 1, and
`a.c` occurs exactly once in each file list. -/
theorem claim_C1_witness :
    WFfiles (⟨[], []⟩ : GState).global_calls ∧
    1 ≤ callOcc tuEx "read" ∧
    countOf (find_funcs_and_calls tuEx ⟨[], []⟩).2.global_calls "read"
      = countOf (⟨[], []⟩ : GState).global_calls "read" + callOcc tuEx "read" ∧
    (filesOf (find_funcs_and_calls tuEx ⟨[], []⟩).2.global_calls "read").count tuEx.spelling = 1 ∧
    countOf (find_funcs_and_calls tuEx ⟨[], []⟩).2.global_funcs "read"
      = countOf (⟨[], []⟩ : GState).global_funcs "read" + declOcc tuEx "read" ∧
    (filesOf (find_funcs_and_calls tuEx ⟨[], []⟩).2.global_funcs "read").count tuEx.spelling = 1 := by
  have h := claim_C1 tuEx ⟨[], []⟩ "read" (by decide) (by decide)
  exact ⟨by decide, by decide, h.1, h.2.1 (by decide), h.2.2.1, h.2.2.2.1 (by decide)⟩

theorem processNode_funcs_sound (filename : String) (st : AState) (c : Node)
    (P : Node → Prop)
    (hP : c.locFile = some filename → c.kind = CursorKind.functionDecl → P c)
    (hst : ∀ x ∈ st.funcs, P x) :
    ∀ x ∈ (processNode filename st c).funcs, P x := by
  rw [processNode_funcs_list]
  split
  · rename_i hcond
    simp only [Bool.and_eq_true, decide_eq_true_eq] at hcond
    intro x hx
    rcases List.mem_append.mp hx with h1 | h2
    · exact hst x h1
    · simp only [List.mem_singleton] at h2
      subst h2
      exact hP hcond.1 hcond.2
  · exact hst

theorem processNode_calls_sound (filename : String) (st : AState) (c : Node)
    (P : Node → Prop)
    (hP : c.locFile = some filename → c.kind = CursorKind.callExpr → P c)
    (hst : ∀ x ∈ st.calls, P x) :
    ∀ x ∈ (processNode filename st c).calls, P x := by
  rw [processNode_calls_list]
  split
  · rename_i hcond
    simp only [Bool.and_eq_true, decide_eq_true_eq] at hcond
    intro x hx
    rcases List.mem_append.mp hx with h1 | h2
    · exact hst x h1
    · simp only [List.mem_singleton] at h2
      subst h2
      exact hP hcond.1 hcond.2
  · exact hst

theorem foldl_funcs_sound (filename : String) :
    ∀ (ns : List Node) (st : AState),
      (∀ x ∈ st.funcs, x.locFile = some filename ∧ x.kind = CursorKind.functionDecl) →
      ∀ x ∈ (ns.foldl (processNode filename) st).funcs,
        x.locFile = some filename ∧ x.kind = CursorKind.functionDecl := by
  intro ns
  induction ns with
  | nil => intro st h; exact h
  | cons c rest ih =>
      intro st h
      rw [List.foldl_cons]
      exact ih _ (processNode_funcs_sound filename st c _ (fun h1 h2 => ⟨h1, h2⟩) h)

theorem foldl_calls_sound (filename : String) :
    ∀ (ns : List Node) (st : AState),
      (∀ x ∈ st.calls, x.locFile = some filename ∧ x.kind = CursorKind.callExpr) →
      ∀ x ∈ (ns.foldl (processNode filename) st).calls,
        x.locFile = some filename ∧ x.kind = CursorKind.callExpr := by
  intro ns
  induction ns with
  | nil => intro st h; exact h
  | cons c rest ih =>
      intro st h
      rw [List.foldl_cons]
      exact ih _ (processNode_calls_sound filename st c _ (fun h1 h2 => ⟨h1, h2⟩) h)

theorem mem_walkList_of_mem (d : Node) (cs : List Node) (hd : d ∈ cs)
    (x : Node) (hx : x ∈ walk_preorder d) : x ∈ walkList cs := by
  induction cs with
  | nil => simp at hd
  | cons c rest ih =>
      rcases List.mem_cons.mp hd with h1 | h2
      · subst h1
        exact List.mem_append_left _ hx
      · exact List.mem_append_right _ (ih h2)

/-- C2: a node is recorded only when its location file is bound and equal
to the unit's primary file: (i) a node with an absent location file, or one
located in a different file, leaves the whole loop state (both sequences
and both tables) unchanged; (ii) every node of the returned declaration and
call sequences is located in the primary file and has the matching kind;
(iii) the preorder walk still visits all descendants of every node,
qualifying or not. -/
theorem claim_C2 (tu : Node) (g : GState) :
    (∀ (st : AState) (c : Node),
      c.locFile = none ∨ c.locFile ≠ some tu.spelling →
      processNode tu.spelling st c = st) ∧
    (∀ c ∈ (find_funcs_and_calls tu g).1.1,
      c.locFile = some tu.spelling ∧ c.kind = CursorKind.functionDecl) ∧
    (∀ c ∈ (find_funcs_and_calls tu g).1.2,
      c.locFile = some tu.spelling ∧ c.kind = CursorKind.callExpr) ∧
    (∀ (c : Node), ∀ d ∈ c.children, ∀ x ∈ walk_preorder d, x ∈ walk_preorder c) := by
  refine ⟨?_, ?_, ?_, ?_⟩
  · intro st c h
    exact processNode_skip tu.spelling st c h
  · intro c hc
    exact foldl_funcs_sound tu.spelling (walk_preorder tu) ⟨[], [], g⟩
      (by intro x hx; simp at hx) c hc
  · intro c hc
    exact foldl_calls_sound tu.spelling (walk_preorder tu) ⟨[], [], g⟩
      (by intro x hx; simp at hx) c hc
  · intro c d hd x hx
    obtain ⟨k, s, dn, l, i, df, cs⟩ := c
    simp only [Node.children] at hd
    exact List.mem_cons_of_mem _ (mem_walkList_of_mem d cs hd x hx)

/-- Witness for C2: the header-located declaration `hdrDecl` is skipped by
the loop body of the unit `tuEx` without touching the state, and the
returned sequences of `tuEx` satisfy the location/kind property. -/
theorem claim_C2_witness :
    (hdrDecl.locFile = none ∨ hdrDecl.locFile ≠ some tuEx.spelling) ∧
    processNode tuEx.spelling ⟨[], [], ⟨[], []⟩⟩ hdrDecl = ⟨[], [], ⟨[], []⟩⟩ ∧
    (declRead ∈ (find_funcs_and_calls tuEx ⟨[], []⟩).1.1 ∧
      declRead.locFile = some tuEx.spelling ∧
      declRead.kind = CursorKind.functionDecl) := by
  have h := claim_C2 tuEx ⟨[], []⟩
  have hlist : (find_funcs_and_calls tuEx ⟨[], []⟩).1.1 = [declRead] := rfl
  refine ⟨Or.inr (by decide), h.1 ⟨[], [], ⟨[], []⟩⟩ hdrDecl (Or.inr (by decide)), ?_, ?_⟩
  · rw [hlist]
    exact List.mem_singleton_self _
  · exact h.2.1 declRead (by rw [hlist]; exact List.mem_singleton_self _)

theorem check_type_file_eq (env : Env) (s : Bool) (f : String)
    (inc : Option String) (g : GState) :
    check_type_file env s f inc g
      = ⟨if s then [] else ["Gathering symbols of " ++ f],
         (check_type_file env true f inc g).parses,
         (check_type_file env true f inc g).g⟩ := by
  by_cases h1 : (pyEndswith f ".cpp" || pyEndswith f ".hpp" || pyEndswith f ".cc") = true
  · simp [check_type_file, h1, parse_file]
  · by_cases h2 : (pyEndswith f ".c" || pyEndswith f ".h" || pyEndswith f ".hh") = true
    · simp [check_type_file, h1, h2, parse_file]
    · simp [check_type_file, h1, h2]

theorem check_type_file_unsupported (env : Env) (s : Bool) (f : String)
    (inc : Option String) (g : GState)
    (h : (pyEndswith f ".cpp" || pyEndswith f ".hpp" || pyEndswith f ".cc"
          || pyEndswith f ".c" || pyEndswith f ".h" || pyEndswith f ".hh") = false) :
    check_type_file env s f inc g
      = ⟨if s then [] else ["Gathering symbols of " ++ f], [], g⟩ := by
  have hcpp : (pyEndswith f ".cpp" || pyEndswith f ".hpp" || pyEndswith f ".cc") = false := by
    revert h
    cases pyEndswith f ".cpp" <;> cases pyEndswith f ".hpp" <;>
      cases pyEndswith f ".cc" <;> simp
  have hc : (pyEndswith f ".c" || pyEndswith f ".h" || pyEndswith f ".hh") = false := by
    revert h
    cases pyEndswith f ".cpp" <;> cases pyEndswith f ".hpp" <;>
      cases pyEndswith f ".cc" <;> cases pyEndswith f ".c" <;>
      cases pyEndswith f ".h" <;> cases pyEndswith f ".hh" <;> simp
  simp [check_type_file, hcpp, hc]

theorem iterateFiles_g_indep (env : Env) (inc : Option String) :
    ∀ (fs : List String) (s s' : Bool) (a1 a2 : RunOut), a1.g = a2.g →
      (iterateFiles env s inc a1 fs).g = (iterateFiles env s' inc a2 fs).g := by
  intro fs
  induction fs with
  | nil => intro s s' a1 a2 hg; exact hg
  | cons f rest ih =>
      intro s s' a1 a2 hg
      simp only [iterateFiles]
      apply ih
      simp only []
      rw [hg]
      have e1 := check_type_file_eq env s f inc a2.g
      have e2 := check_type_file_eq env s' f inc a2.g
      rw [e1, e2]

theorem check_type_file_msgs_silent (env : Env) (f : String)
    (inc : Option String) (g : GState) :
    (check_type_file env true f inc g).msgs = [] := by
  rw [check_type_file_eq env true f inc g]
  rfl

theorem iterateFiles_msgs_silent (env : Env) (inc : Option String) :
    ∀ (fs : List String) (a : RunOut),
      (iterateFiles env true inc a fs).msgs = a.msgs := by
  intro fs
  induction fs with
  | nil => intro a; rfl
  | cons f rest ih =>
      intro a
      simp only [iterateFiles]
      rw [ih]
      simp [check_type_file_msgs_silent]

theorem compare_syscalls_snd_indep (s s' : Bool) (g : GState) (sys : List String) :
    (compare_syscalls s g sys).2 = (compare_syscalls s' g sys).2 := rfl

/-- C7 (amended): an input path that is neither an existing directory nor
an existing regular file makes the run abort — the warning branch calls the
`sys.stderr` file object as a function, raising an uncaught `TypeError`
(the warning text itself is never written) — and this is the only fatal
input-path condition; a regular file with an unsupported extension is not
an error: no parse is attempted and the tables are left unchanged, but the
`Gathering symbols` progress message is still printed for it unless silent
mode is on. -/
theorem claim_C7 :
    (∀ (env : Env) (s : Bool) (path : String) (inc : Option String) (g : GState),
      env.pathKind path = PathKind.neither →
      check_input_path env s path inc g
        = Except.error "TypeError: sys.stderr object is not callable") ∧
    (∀ (env : Env) (s : Bool) (path : String) (inc : Option String) (g : GState),
      env.pathKind path ≠ PathKind.neither →
      ∃ out, check_input_path env s path inc g = Except.ok out) ∧
    (∀ (env : Env) (s : Bool) (f : String) (inc : Option String) (g : GState),
      (pyEndswith f ".cpp" || pyEndswith f ".hpp" || pyEndswith f ".cc"
       || pyEndswith f ".c" || pyEndswith f ".h" || pyEndswith f ".hh") = false →
      check_type_file env s f inc g
        = ⟨if s then [] else ["Gathering symbols of " ++ f], [], g⟩) := by
  refine ⟨?_, ?_, ?_⟩
  · intro env s path inc g h
    simp [check_input_path, h]
  · intro env s path inc g h
    unfold check_input_path
    cases henv : env.pathKind path with
    | dir => simp
    | file => simp
    | neither => exact absurd henv h
  · intro env s f inc g h
    exact check_type_file_unsupported env s f inc g h

/-- C7 counterexample: a regular file with an unsupported extension is not
skipped silently — in non-silent mode the per-file gathering message is
still printed for it (while indeed no parse happens and the tables are
unchanged). -/
theorem claim_C7_cex :
    check_type_file envEx false "notes.txt" none ⟨[], []⟩
      = ⟨["Gathering symbols of notes.txt"], [], ⟨[], []⟩⟩ ∧
    ["Gathering symbols of notes.txt"] ≠ ([] : List String) := by
  constructor
  · rfl
  · simp

/-- Witness for C7 at concrete inputs: a path that is neither directory nor
file aborts with the TypeError, and the unsupported file `notes.txt` is
skipped without a parse. -/
theorem claim_C7_witness :
    envNeither.pathKind "/nope" = PathKind.neither ∧
    check_input_path envNeither false "/nope" none ⟨[], []⟩
      = Except.error "TypeError: sys.stderr object is not callable" ∧
    (pyEndswith "notes.txt" ".cpp" || pyEndswith "notes.txt" ".hpp"
     || pyEndswith "notes.txt" ".cc" || pyEndswith "notes.txt" ".c"
     || pyEndswith "notes.txt" ".h" || pyEndswith "notes.txt" ".hh") = false ∧
    check_type_file envEx false "notes.txt" none ⟨[], []⟩
      = ⟨if false then [] else ["Gathering symbols of " ++ "notes.txt"], [], ⟨[], []⟩⟩ := by
  refine ⟨rfl, claim_C7.1 envNeither false "/nope" none ⟨[], []⟩ rfl, by decide, ?_⟩
  exact claim_C7.2.2 envEx false "notes.txt" none ⟨[], []⟩ (by decide)

/-- C8 counterexample: with silent mode on and an include-paths file given,
the include-path echo (line 247, not gated by silent) is still printed, so
not every progress echo is suppressed. -/
theorem claim_C8_cex :
    main_model envEx true (some "paths.txt") "root" []
      = Except.ok (["-isystem root/x"], ⟨[], [], [], []⟩) ∧
    ["-isystem root/x"] ≠ ([] : List String) := by
  constructor
  · rfl
  · simp

/-- C8 (amended): silent mode never changes the produced output document
(nor turns a run fatal), and it suppresses every silent-gated progress
message — the per-file gathering messages, the separator banner and the
classification banner — so that the only message remaining in a silent run
is the include-path echo, which is printed whenever an include file is
given because it is not gated by silent. -/
theorem claim_C8 (env : Env) (inc : Option String) (folder : String)
    (sys : List String) :
    (main_model env true inc folder sys).map Prod.snd
      = (main_model env false inc folder sys).map Prod.snd ∧
    (∀ msgs doc, main_model env true inc folder sys = Except.ok (msgs, doc) →
      msgs = (match inc with
              | some i => [get_include_paths env folder i]
              | none => [])) := by
  have hg_dir : ∀ (incP : Option String),
      (iterate_root_folder env true folder incP ⟨[], []⟩).g
        = (iterate_root_folder env false folder incP ⟨[], []⟩).g := by
    intro incP
    unfold iterate_root_folder
    exact iterateFiles_g_indep env incP (env.walkFiles folder) true false _ _ rfl
  have hg_file : ∀ (incP : Option String),
      (check_type_file env true folder incP ⟨[], []⟩).g
        = (check_type_file env false folder incP ⟨[], []⟩).g := by
    intro incP
    rw [check_type_file_eq env true folder incP ⟨[], []⟩,
        check_type_file_eq env false folder incP ⟨[], []⟩]
  have hmsgs_dir : ∀ (incP : Option String),
      (iterate_root_folder env true folder incP ⟨[], []⟩).msgs = [] := by
    intro incP
    unfold iterate_root_folder
    exact iterateFiles_msgs_silent env incP (env.walkFiles folder) _
  constructor
  · cases inc with
    | none =>
        simp only [main_model, check_input_path]
        by_cases h1 : env.pathKind folder = PathKind.dir
        · rw [if_pos h1, if_pos h1]
          simp [Except.map, hg_dir none]
          exact ⟨rfl, rfl⟩
        · by_cases h2 : env.pathKind folder = PathKind.file
          · rw [if_neg h1, if_neg h1, if_pos h2, if_pos h2]
            simp [Except.map, hg_file none]
            exact ⟨rfl, rfl⟩
          · rw [if_neg h1, if_neg h1, if_neg h2, if_neg h2]
    | some incFile =>
        simp only [main_model, check_input_path]
        by_cases h1 : env.pathKind folder = PathKind.dir
        · rw [if_pos h1, if_pos h1]
          simp [Except.map, hg_dir (some (get_include_paths env folder incFile))]
          exact ⟨rfl, rfl⟩
        · by_cases h2 : env.pathKind folder = PathKind.file
          · rw [if_neg h1, if_neg h1, if_pos h2, if_pos h2]
            simp [Except.map, hg_file (some (get_include_paths env folder incFile))]
            exact ⟨rfl, rfl⟩
          · rw [if_neg h1, if_neg h1, if_neg h2, if_neg h2]
  · intro msgs doc hok
    cases inc with
    | none =>
        simp only [main_model, check_input_path] at hok
        by_cases h1 : env.pathKind folder = PathKind.dir
        · rw [if_pos h1] at hok
          simp [compare_syscalls] at hok
          rw [← hok.1]
          exact hmsgs_dir none
        · by_cases h2 : env.pathKind folder = PathKind.file
          · rw [if_neg h1, if_pos h2] at hok
            simp [compare_syscalls] at hok
            rw [← hok.1]
            exact check_type_file_msgs_silent env folder none ⟨[], []⟩
          · rw [if_neg h1, if_neg h2] at hok
            simp at hok
    | some incFile =>
        simp only [main_model, check_input_path] at hok
        by_cases h1 : env.pathKind folder = PathKind.dir
        · rw [if_pos h1] at hok
          simp [compare_syscalls] at hok
          rw [← hok.1, hmsgs_dir (some (get_include_paths env folder incFile))]
        · by_cases h2 : env.pathKind folder = PathKind.file
          · rw [if_neg h1, if_pos h2] at hok
            simp [compare_syscalls] at hok
            rw [← hok.1,
                check_type_file_msgs_silent env folder
                  (some (get_include_paths env folder incFile)) ⟨[], []⟩]
          · rw [if_neg h1, if_neg h2] at hok
            simp at hok

/-- Witness for C8: a concrete silent run over an environment of regular
files produces the same document as the non-silent run, and its message
list is exactly the include echo. -/
theorem claim_C8_witness :
    (main_model envEx true (some "paths.txt") "root" []).map Prod.snd
      = (main_model envEx false (some "paths.txt") "root" []).map Prod.snd ∧
    main_model envEx true (some "paths.txt") "root" []
      = Except.ok (["-isystem root/x"], ⟨[], [], [], []⟩) ∧
    ["-isystem root/x"] = [get_include_paths envEx "root" "paths.txt"] := by
  refine ⟨(claim_C8 envEx (some "paths.txt") "root" []).1, rfl, ?_⟩
  exact (claim_C8 envEx (some "paths.txt") "root" []).2
      ["-isystem root/x"] ⟨[], [], [], []⟩ (by rfl)
